import Mathlib

/-!
Shallow embedding of the decode-phase orchestration logic of
`src/fasterTTS/models/xttsv2/components/vllm_mm_gpt.py` (XttsGPT / GPT2Model).

Packed token and position tensors are 1-D and modelled as `List Int`.
Embedding rows (hidden-state rows of width `hidden_dim`) are opaque values of a
type parameter `α`: every operation the claims concern moves rows around
(slice, concatenate, split) without inspecting their numeric content, so the
embedding is polymorphic in the row type.  Python slice semantics (clipping)
and `torch.split` semantics (fatal error when the sizes do not tile the
dimension) are modelled explicitly.
-/

namespace VllmMmGpt

/-- Sentinel token ids from `XttsGPT.forward` line 291:
`torch.isin(input_ids, torch.tensor([1, 1024]))`.  `1` is the padding filler id
injected by `input_processor_for_xtts2_gpt`, `1024` the start-audio token. -/
def PAD_FILLER_ID : Int := 1

/-- See `PAD_FILLER_ID`. -/
def START_AUDIO_TOKEN_ID : Int := 1024

/-- The `is_logits_only_mode` argument of `XttsGPT.forward`: either a Python
bool or a tensor (modelled by its flattened element list; Python truthiness of
an element is `≠ 0`). -/
inductive LogitsOnlyFlag : Type
  | bool (b : Bool)
  | tensor (vals : List Int)

/-- `XttsGPT.check_is_logits_only_mode` (lines 237-253): a bool is returned
as-is; a tensor with `numel() == 1` is converted via `bool(x.item())`; a
non-scalar tensor uses `x.any()`. -/
def check_is_logits_only_mode : LogitsOnlyFlag → Bool
  | .bool b => b
  | .tensor [v] => decide (v ≠ 0)
  | .tensor vals => vals.any (fun v => decide (v ≠ 0))

/-- `is_first_iteration` in `XttsGPT.forward` line 291:
`len(input_ids) > 1 and torch.isin(input_ids, [1, 1024]).all()`. -/
def is_first_iteration (input_ids : List Int) : Bool :=
  decide (input_ids.length > 1) &&
    input_ids.all (fun t => decide (t = PAD_FILLER_ID) || decide (t = START_AUDIO_TOKEN_ID))

/-- The derived request-phase marker (spec §3). -/
inductive Phase : Type
  | PRIMING
  | INCREMENTAL
  | LOGITS_ONLY
  deriving DecidableEq

/-- Phase routing of `XttsGPT.forward` (line 291, 295) combined with the
branch structure of `GPT2Model.forward` (lines 407-444): the logits-only flag
wins (`elif is_logits_only_mode` is also reached when both flags hold, because
the priming branch requires `not is_logits_only_mode`); else priming when the
packed input is longer than 1 and all tokens are sentinels; else incremental. -/
def classify (input_ids : List Int) (flag : LogitsOnlyFlag) : Phase :=
  if check_is_logits_only_mode flag then Phase.LOGITS_ONLY
  else if is_first_iteration input_ids then Phase.PRIMING
  else Phase.INCREMENTAL

/-- Python list/tensor slice `l[start:stop]` for non-negative bounds: clips
silently at the ends, empty when `start ≥ stop`. -/
def pySlice {α : Type} (l : List α) (start stop : Nat) : List α :=
  (l.take stop).drop start

/-- Helper for the cumulative offset loop of `GPT2Model.forward` lines
417-428, carrying the previous request's cumulative end.  The first produced
pair is `(prevEnd + c, prevEnd + s)`; with `prevEnd = 0` that is `(c₀, s₀)`,
matching `cumulative_starts = [starting_idx[0]]`,
`cumulative_ends = [ending_ids[0]]`; each later pair adds the previous
cumulative end, matching `next_start = cumulative_ends[i-1] + starting_idx[i]`
and `next_end = cumulative_ends[i-1] + ending_ids[i]`.  The Python loop runs
over `range(1, len(starting_idx))` and indexes `ending_ids[i]`; there is one
conditioning tensor and one seq-len per request, so the two lists have equal
length in every call, which is how the zip-style recursion below agrees with
it. -/
def offsetAux (prevEnd : Nat) : List Nat → List Nat → List (Nat × Nat)
  | [], _ => []
  | _ :: _, [] => []
  | c :: cs, s :: ss => (prevEnd + c, prevEnd + s) :: offsetAux (prevEnd + s) cs ss

/-- The per-request offset table `zip(cumulative_starts, cumulative_ends)`
computed by `GPT2Model.forward` lines 411-428 for the heterogeneous
(list-of-conditioning-tensors) logits-only branch.  `condLens` is
`[t.shape[0] for t in input_embeds]` and `seqLens` is
`attn_metadata.seq_lens`. -/
def offsetTable (condLens seqLens : List Nat) : List (Nat × Nat) :=
  offsetAux 0 condLens seqLens

/-- `ids_for_unpacking = [end - start for start, end in zip(...)]` (line 430).
Python subtraction can go negative, so the sizes are integers. -/
def ids_for_unpacking (condLens seqLens : List Nat) : List Int :=
  (offsetTable condLens seqLens).map (fun p => (p.2 : Int) - (p.1 : Int))

/-- The `torch.cat` of per-pair slices in lines 432-439: both `input_ids` and
`position_ids` are sliced as `x[start:end]` per offset pair and concatenated
(the `reshape(1, -1)` / `cat(dim=-1)` / `squeeze(0)` dance nets out to plain
1-D concatenation). -/
def repackSlices {α : Type} (l : List α) (table : List (Nat × Nat)) : List α :=
  (table.map (fun p => pySlice l p.1 p.2)).flatten

/-- `torch.split(l, sizes)` aux for non-negative sizes: each chunk must be
available in full and the sizes must tile the whole list, else the call
raises. -/
def splitSizesAux {α : Type} : List α → List Nat → Option (List (List α))
  | l, [] => if l.isEmpty then some [] else none
  | l, n :: ns =>
    if n ≤ l.length then (splitSizesAux (l.drop n) ns).map (fun r => l.take n :: r)
    else none

/-- `hidden_states.split(ids_for_unpacking, dim=0)` (line 457):
`torch.split` raises a fatal `RuntimeError` when a size is negative or the
sizes do not sum to the dimension size; `none` models that fatal error. -/
def splitSizes {α : Type} (l : List α) (sizes : List Int) : Option (List (List α)) :=
  if sizes.all (fun z => decide (0 ≤ z)) then splitSizesAux l (sizes.map Int.toNat)
  else none

/-- The interleaving `torch.cat` of lines 474-479 in the case where
`hidden_states` is already a per-request list (logits-only, list
conditioning): `zip(input_embeds, hidden_states)` pairs each conditioning
tensor with its request's hidden-state chunk and the flattened pairs are
concatenated in batch order. -/
def interleaveCat {α : Type} (conds chunks : List (List α)) : List α :=
  ((conds.zip chunks).map (fun p => p.1 ++ p.2)).flatten

/-- The interleaving `torch.cat` of lines 474-479 in the priming case, where
`hidden_states` is a single tensor: the zip partner is
`[hidden_states] * len(input_embeds)`, so every conditioning tensor is
followed by the same block `hs`. -/
def interleaveCatReplicate {α : Type} (conds : List (List α)) (hs : List α) : List α :=
  ((conds.zip (List.replicate conds.length hs)).map (fun p => p.1 ++ p.2)).flatten

/-- The whole heterogeneous logits-only assembly path of `GPT2Model.forward`
(lines 411-439 then 446-479): compute the offset table from the per-request
conditioning row counts and `seq_lens`, slice and concatenate the packed
token and position tensors, embed each kept row (`emb t p` stands for
`wte(t) + wpe.get_fixed_embedding(p)` on that row), split the rows back into
per-request chunks with `ids_for_unpacking`, and interleave each request's
conditioning rows before its chunk.  `none` is the fatal `torch.split`
error. -/
def logitsOnlyForward {α : Type} (emb : Int → Int → α) (conds : List (List α))
    (tokens positions : List Int) (seqLens : List Nat) : Option (List α) :=
  let condLens := conds.map List.length
  let table := offsetTable condLens seqLens
  let toks := repackSlices tokens table
  let poss := repackSlices positions table
  let hidden := List.zipWith emb toks poss
  match splitSizes hidden (ids_for_unpacking condLens seqLens) with
  | none => none
  | some chunks => some (interleaveCat conds chunks)

/-- `shape[1]` of a batched (3-D) conditioning tensor modelled as a batch of
row lists; torch tensors are rectangular, so dim 1 is the length of the first
batch element. -/
def shape1 {α : Type} (t : List (List α)) : Nat := t.headI.length

/-- The homogeneous (single-tensor) logits-only branch, lines 440-442:
`input_ids = input_ids[input_embeds.shape[1]:]` (and identically for
`position_ids`): everything from row index `shape[1]` on is kept as audio
tokens, the prefix is dropped as conditioning. -/
def singleCondSlice {α β : Type} (input_embeds : List (List α)) (packed : List β) : List β :=
  packed.drop (shape1 input_embeds)

/-- One request's slice of a well-formed packed logits-only batch, used to
state the reconstruction claims: `cond` is the request's conditioning
embedding rows, `condToks`/`condPoss` the packed placeholder tokens and
positions standing under the conditioning span (one per conditioning row),
and `audToks`/`audPoss` the request's packed audio tokens and positions.  The
packed batch is the concatenation `condToks ++ audToks` (resp. positions)
over all requests in batch order, with `seq_lens` the per-request totals. -/
structure ReqLayout (α : Type) : Type where
  cond : List α
  condToks : List Int
  audToks : List Int
  condPoss : List Int
  audPoss : List Int

/-- The single hidden-state row the priming branch builds (lines 408, 446-454):
`input_ids = input_ids[-1].reshape(1, 1)` keeps only the last packed token,
`wte` embeds it, and since `is_first_iteration` holds the positional embedding
is `self.wpe(...)` over a fresh `arange(0, 1)`, i.e. the row at synthetic
position 0; the two rows are summed.  `wte`, `wpe` and the rowwise sum `hadd`
are opaque. -/
def primingHiddenRow {α : Type} (wte : Int → α) (wpe : Nat → α) (hadd : α → α → α)
    (input_ids : List Int) : α :=
  hadd (wte (input_ids.getLastD 0)) (wpe 0)

/-- The profiling-mode trailing-row drop, lines 466-470: after the single
non-list conditioning tensor is flattened by `view(-1, hidden)` to `condRows`,
if its row count equals exactly `attn_metadata.num_prefill_tokens` the last
row is removed (`input_embeds[:-1]`), otherwise the tensor is untouched. -/
def primingSingleCondAdjust {α : Type} (condRows : List α) (num_prefill_tokens : Nat) :
    List α :=
  if condRows.length = num_prefill_tokens then condRows.dropLast else condRows

/-- Priming assembly for a single non-list conditioning tensor (lines 459-481):
the possibly-adjusted conditioning rows are concatenated in front of the
hidden states (here the single row kept by the priming branch). -/
def primingSingleAssemble {α : Type} (condRows : List α) (num_prefill_tokens : Nat)
    (h : α) : List α :=
  primingSingleCondAdjust condRows num_prefill_tokens ++ [h]

/-- Priming assembly for a per-request list conditioning bundle (lines
407-408, 446-454, 472-479): `hidden_states` is the single row built by
`primingHiddenRow` (not a list, because the `split` at line 456 runs only in
logits-only mode), and each conditioning tensor is zipped against a copy of
that same block. -/
def primingListForward {α : Type} (wte : Int → α) (wpe : Nat → α) (hadd : α → α → α)
    (conds : List (List α)) (input_ids : List Int) : List α :=
  interleaveCatReplicate conds [primingHiddenRow wte wpe hadd input_ids]

/-- The tail of `GPT2Model.forward` on the process that owns the last pipeline
stage (line 498): `hidden_states = self.ln_f(hidden_states)` — the driver
returns `ln_f`-normalized hidden states.  The normalization itself is an
opaque function on the hidden-state type. -/
def gptLastRankFinalize {H : Type} (ln_f : H → H) (h : H) : H := ln_f h

/-- Result of `XttsGPT.compute_logits`: the (possibly) collector-exported
hidden states and the logits handed to the sampler. -/
structure LogitsResult (H L : Type) : Type where
  collected : Option H
  logits : L

/-- `XttsGPT.compute_logits` (lines 311-328): it applies `self.final_norm` (a
second, separate `LayerNorm`) to the incoming hidden states, then, when the
sampling params carry a `hidden_state_collector`, calls it with those
normalized states, and finally projects through `mel_head` via the logits
processor.  `final_norm` and the projection are opaque functions. -/
def compute_logits {H L : Type} (final_norm : H → H) (project : H → L)
    (hasCollector : Bool) (hidden_states : H) : LogitsResult H L :=
  let h := final_norm hidden_states
  { collected := if hasCollector then some h else none, logits := project h }

/-- The full path from the transformer stack driver's last-stage finalization
to the decode head (line 498 composed with lines 311-328). -/
def assemblerToHeadPath {H L : Type} (ln_f final_norm : H → H) (project : H → L)
    (hasCollector : Bool) (h : H) : LogitsResult H L :=
  compute_logits final_norm project hasCollector (gptLastRankFinalize ln_f h)

/-- `XttsGPT.load_weights` (lines 338-358), with the value-level treatment of
a matched weight (the transpose of `c_attn`/`c_proj`/`c_fc` `.weight` matrices
and the per-parameter `weight_loader`) abstracted as `adjust`.  A supplied
pair whose name is not in `params_dict` is skipped (`continue`); a matched
pair is bound and its name added to `loaded_names`; afterwards the assert
requires `params_dict.keys() - loaded_names == set()` and otherwise fails with
a message carrying exactly that difference set — modelled as
`Except`: `error missing` is the fatal assert naming every unbound parameter,
`ok` carries the bound `(name, adjusted weight)` pairs in load order. -/
def load_weights {W : Type} (declared : List String) (adjust : String → W → W)
    (weights : List (String × W)) : Except (List String) (List (String × W)) :=
  let bound := (weights.filter (fun nw => declared.contains nw.1)).map
    (fun nw => (nw.1, adjust nw.1 nw.2))
  let loaded_names := bound.map Prod.fst
  let missing := declared.filter (fun p => ¬ loaded_names.contains p)
  if missing.isEmpty then Except.ok bound else Except.error missing

/-! ## Theorems -/

/-- C4: phase classification yields exactly one phase; the explicit flag wins
with bool-as-is / single-element truth-value / any-true semantics; else
PRIMING iff the packed tensor is longer than 1 and all tokens are sentinels;
else INCREMENTAL; a length-1 packed tensor is never PRIMING. -/
theorem claim_C4 (input_ids : List Int) (flag : LogitsOnlyFlag) :
    (classify input_ids flag = Phase.LOGITS_ONLY ∨
      classify input_ids flag = Phase.PRIMING ∨
      classify input_ids flag = Phase.INCREMENTAL)
  ∧ (∀ b, check_is_logits_only_mode (LogitsOnlyFlag.bool b) = b)
  ∧ (∀ v, check_is_logits_only_mode (LogitsOnlyFlag.tensor [v]) = decide (v ≠ 0))
  ∧ (∀ vs, vs.length ≠ 1 →
      check_is_logits_only_mode (LogitsOnlyFlag.tensor vs)
        = vs.any (fun v => decide (v ≠ 0)))
  ∧ (check_is_logits_only_mode flag = true →
      classify input_ids flag = Phase.LOGITS_ONLY)
  ∧ (check_is_logits_only_mode flag = false →
      (classify input_ids flag = Phase.PRIMING ↔
        (input_ids.length > 1 ∧
          ∀ t ∈ input_ids, t = PAD_FILLER_ID ∨ t = START_AUDIO_TOKEN_ID)))
  ∧ (input_ids.length = 1 → classify input_ids flag ≠ Phase.PRIMING) := by
  refine ⟨?_, ?_, ?_, ?_, ?_, ?_, ?_⟩
  · unfold classify
    by_cases h1 : check_is_logits_only_mode flag = true
    · simp [h1]
    · by_cases h2 : is_first_iteration input_ids = true <;> simp [h1, h2]
  · intro b; rfl
  · intro v; rfl
  · intro vs hvs
    match vs with
    | [] => rfl
    | [v] => exact absurd rfl hvs
    | v :: w :: t => rfl
  · intro h; simp [classify, h]
  · intro h
    simp only [classify, h, if_false, Bool.false_eq_true]
    constructor
    · intro hp
      by_cases h2 : is_first_iteration input_ids = true
      · have := h2
        simp only [is_first_iteration, Bool.and_eq_true, decide_eq_true_eq,
          List.all_eq_true, Bool.or_eq_true] at this
        exact ⟨this.1, this.2⟩
      · simp [h2] at hp
    · intro ⟨hl, ha⟩
      have h2 : is_first_iteration input_ids = true := by
        simp only [is_first_iteration, Bool.and_eq_true, decide_eq_true_eq,
          List.all_eq_true, Bool.or_eq_true]
        exact ⟨hl, ha⟩
      simp [h2]
  · intro hl hp
    unfold classify at hp
    by_cases h1 : check_is_logits_only_mode flag = true
    · simp [h1] at hp
    · have h2 : is_first_iteration input_ids = false := by
        simp [is_first_iteration, hl]
      simp [h1, h2] at hp

/-- Witness for C4 at concrete inputs: an all-sentinel length-2 input with a
false flag is PRIMING, a truthy tensor flag forces LOGITS_ONLY, and a length-1
input is never PRIMING. -/
theorem claim_C4_witness :
    classify [1, 1024] (LogitsOnlyFlag.bool false) = Phase.PRIMING
  ∧ classify [1, 1024] (LogitsOnlyFlag.tensor [0, 3]) = Phase.LOGITS_ONLY
  ∧ classify [1] (LogitsOnlyFlag.bool false) ≠ Phase.PRIMING := by
  refine ⟨?_, ?_, ?_⟩
  · exact ((claim_C4 [1, 1024] (LogitsOnlyFlag.bool false)).2.2.2.2.2.1
      (by decide)).mpr (by decide)
  · exact (claim_C4 [1, 1024] (LogitsOnlyFlag.tensor [0, 3])).2.2.2.2.1 (by decide)
  · exact (claim_C4 [1] (LogitsOnlyFlag.bool false)).2.2.2.2.2.2 (by decide)

/-- C5: in the homogeneous (single-tensor) logits-only branch the alignment
offset is the conditioning tensor's row count (`shape[1]` of the batch-1
tensor), and slicing the packed token and position tensors from that index
keeps exactly the audio part and drops exactly the conditioning prefix. -/
theorem claim_C5 {β : Type} (cond : List β) (preT audT preP audP : List Int)
    (hT : preT.length = cond.length) (hP : preP.length = cond.length) :
    shape1 [cond] = cond.length
  ∧ singleCondSlice [cond] (preT ++ audT) = audT
  ∧ singleCondSlice [cond] (preP ++ audP) = audP := by
  refine ⟨rfl, ?_, ?_⟩
  · show (preT ++ audT).drop (shape1 [cond]) = audT
    have : shape1 [cond] = preT.length := by simp [shape1, hT]
    rw [this, List.drop_left]
  · show (preP ++ audP).drop (shape1 [cond]) = audP
    have : shape1 [cond] = preP.length := by simp [shape1, hP]
    rw [this, List.drop_left]

/-- Witness for C5 at a concrete input: conditioning of 3 rows, packed tokens
`[1,1,1,7,8]` and positions `[0,1,2,3,4]`. -/
theorem claim_C5_witness :
    shape1 [[(10 : Int), 11, 12]] = 3
  ∧ singleCondSlice [[(10 : Int), 11, 12]] [(1 : Int), 1, 1, 7, 8] = [7, 8]
  ∧ singleCondSlice [[(10 : Int), 11, 12]] [(0 : Int), 1, 2, 3, 4] = [3, 4] := by
  exact claim_C5 [(10 : Int), 11, 12] [1, 1, 1] [7, 8] [0, 1, 2] [3, 4]
    (by decide) (by decide)

/-- C6: in the priming phase with a single non-list conditioning tensor the
trailing row is dropped iff the (flattened) row count equals exactly
`num_prefill_tokens`; the check is exact equality and, in the priming context
(`0 < num_prefill_tokens`), the drop shortens the assembled output by exactly
one row relative to the unadjusted concatenation. -/
theorem claim_C6 {α : Type} (condRows : List α) (n : Nat) (h : α) (hn : 0 < n) :
    (condRows.length = n →
      primingSingleAssemble condRows n h = condRows.dropLast ++ [h]
      ∧ (primingSingleAssemble condRows n h).length + 1 = (condRows ++ [h]).length)
  ∧ (condRows.length ≠ n → primingSingleAssemble condRows n h = condRows ++ [h]) := by
  constructor
  · intro he
    have hne : condRows ≠ [] := by
      intro hnil; rw [hnil] at he; simp at he; omega
    constructor
    · simp [primingSingleAssemble, primingSingleCondAdjust, he]
    · have h1 : primingSingleAssemble condRows n h = condRows.dropLast ++ [h] := by
        simp [primingSingleAssemble, primingSingleCondAdjust, he]
      rw [h1]
      simp only [List.length_append, List.length_dropLast, List.length_cons,
        List.length_nil]
      have : 0 < condRows.length := List.length_pos.mpr hne
      omega
  · intro he
    simp [primingSingleAssemble, primingSingleCondAdjust, he]

/-- Witness for C6: with 3 conditioning rows, `num_prefill_tokens = 3` drops
the trailing row while `num_prefill_tokens = 4` keeps all rows. -/
theorem claim_C6_witness :
    primingSingleAssemble [(10 : Int), 11, 12] 3 99 = [10, 11, 99]
  ∧ primingSingleAssemble [(10 : Int), 11, 12] 4 99 = [10, 11, 12, 99] := by
  constructor
  · exact ((claim_C6 [(10 : Int), 11, 12] 3 99 (by decide)).1 (by decide)).1
  · exact (claim_C6 [(10 : Int), 11, 12] 4 99 (by decide)).2 (by decide)

/-- C7 counterexample: the decode head does apply normalization a second
time.  Instantiating both norm layers with `Nat.succ` (each application adds
one) and the projection with `id`, the driver's last-stage output for input
`0` is `1`, yet `compute_logits` hands `2` — not the driver's output — to the
collector and the projection, so the claim that the head must not normalize
again is false on the code. -/
theorem claim_C7_counterexample :
    gptLastRankFinalize Nat.succ 0 = 1
  ∧ (compute_logits Nat.succ id true (gptLastRankFinalize Nat.succ 0)).logits = 2
  ∧ (compute_logits Nat.succ id true (gptLastRankFinalize Nat.succ 0)).collected = some 2
  ∧ (compute_logits Nat.succ id true (gptLastRankFinalize Nat.succ 0)).logits
      ≠ gptLastRankFinalize Nat.succ 0 := by
  refine ⟨rfl, rfl, rfl, by decide⟩

/-- C7 amended: on the path from the assembler to the decode head,
normalization is applied twice, not once: the driver applies `ln_f` when it
owns the last stage, and `compute_logits` unconditionally applies the
separate `final_norm` to the driver's output before invoking the optional
collector and projecting to logits — both the collected hidden states and the
projection input are `final_norm (ln_f h)`. -/
theorem claim_C7_amended {H L : Type} (ln_f final_norm : H → H) (project : H → L)
    (hasCollector : Bool) (h : H) :
    assemblerToHeadPath ln_f final_norm project hasCollector h =
      { collected := if hasCollector then some (final_norm (ln_f h)) else none,
        logits := project (final_norm (ln_f h)) } := rfl

/-- C9: in the priming phase with a per-request list conditioning bundle,
the assembled output interleaves each conditioning tensor with the same
single retained-last-token hidden row: `cond₀ ++ [h] ++ cond₁ ++ [h] ++ …`
with `h = wte(last token) + wpe(0)` duplicated after every tensor. -/
theorem claim_C9 {α : Type} (wte : Int → α) (wpe : Nat → α) (hadd : α → α → α)
    (conds : List (List α)) (input_ids : List Int) :
    primingListForward wte wpe hadd conds input_ids =
      (conds.map (fun c => c ++ [primingHiddenRow wte wpe hadd input_ids])).flatten := by
  unfold primingListForward
  induction conds with
  | nil => rfl
  | cons c cs ih =>
    simp only [interleaveCatReplicate, List.length_cons, List.replicate_succ,
      List.zip_cons_cons, List.map_cons, List.flatten_cons] at ih ⊢
    rw [ih]

/-- A name is among the loaded names of `load_weights` iff it was supplied
and is declared. -/
lemma mem_loaded_names {W : Type} (declared : List String) (adjust : String → W → W)
    (weights : List (String × W)) (q : String) :
    (q ∈ ((weights.filter (fun nw => declared.contains nw.1)).map
        (fun nw => (nw.1, adjust nw.1 nw.2))).map Prod.fst) ↔
      (q ∈ weights.map Prod.fst ∧ q ∈ declared) := by
  simp only [List.map_map, List.mem_map, Function.comp, List.mem_filter]
  constructor
  · rintro ⟨nw, ⟨hmem, hdecl⟩, hq⟩
    subst hq
    exact ⟨⟨nw, hmem, rfl⟩, by simpa using hdecl⟩
  · rintro ⟨⟨nw, hmem, hq⟩, hdecl⟩
    subst hq
    exact ⟨nw, ⟨hmem, by simpa using hdecl⟩, rfl⟩

/-- Filtering a duplicate-free list with a predicate that holds exactly at one
member `p` yields `[p]`. -/
lemma filter_eq_singleton {l : List String} {pred : String → Bool} {p : String}
    (hnd : l.Nodup) (hp : p ∈ l) (hiff : ∀ q ∈ l, pred q = true ↔ q = p) :
    l.filter pred = [p] := by
  induction l with
  | nil => cases hp
  | cons a t ih =>
    rcases List.nodup_cons.mp hnd with ⟨hat, hnt⟩
    by_cases hap : a = p
    · subst hap
      have hpa : pred a = true := (hiff a (List.mem_cons_self a t)).mpr rfl
      have ht : t.filter pred = [] := by
        apply List.filter_eq_nil_iff.mpr
        intro q hq hpq
        exact hat ((hiff q (List.mem_cons_of_mem a hq)).mp hpq ▸ hq)
      simp [List.filter_cons, hpa, ht]
    · have hpmem : p ∈ t := by
        rcases List.mem_cons.mp hp with h | h
        · exact absurd h.symm hap
        · exact h
      have hpa : pred a = false := by
        by_contra hc
        have := (hiff a (List.mem_cons_self a t)).mp (by
          cases h : pred a
          · exact absurd h (by simpa using hc)
          · rfl)
        exact hap this
      have := ih hnt hpmem (fun q hq => hiff q (List.mem_cons_of_mem a hq))
      simp [List.filter_cons, hpa, this]

/-- C8: `load_weights` binds every declared parameter by exact name and fails
fatally naming every unbound parameter: when every declared name is supplied,
loading succeeds with every declared parameter bound; when any set of
declared names is left unbound after all supplied weights are consumed, it
fails with an error list containing exactly the unbound declared parameters
(every one of them, and nothing else); in the special case of omitting
exactly one declared name `p`, the error names exactly `[p]`. -/
theorem claim_C8 {W : Type} (declared : List String) (adjust : String → W → W)
    (weights : List (String × W)) (hnd : declared.Nodup) :
    ((∀ p ∈ declared, p ∈ weights.map Prod.fst) →
      ∃ bound, load_weights declared adjust weights = Except.ok bound
        ∧ ∀ p ∈ declared, p ∈ bound.map Prod.fst)
  ∧ ((∃ p ∈ declared, p ∉ weights.map Prod.fst) →
      ∃ missing, load_weights declared adjust weights = Except.error missing
        ∧ ∀ q, q ∈ missing ↔ (q ∈ declared ∧ q ∉ weights.map Prod.fst))
  ∧ (∀ p ∈ declared, p ∉ weights.map Prod.fst →
      (∀ q ∈ declared, q ≠ p → q ∈ weights.map Prod.fst) →
      load_weights declared adjust weights = Except.error [p]) := by
  refine ⟨?_, ?_, ?_⟩
  · intro hall
    refine ⟨(weights.filter (fun nw => declared.contains nw.1)).map
      (fun nw => (nw.1, adjust nw.1 nw.2)), ?_, ?_⟩
    · unfold load_weights
      have hmiss : declared.filter (fun p => ¬ (((weights.filter
          (fun nw => declared.contains nw.1)).map
          (fun nw => (nw.1, adjust nw.1 nw.2))).map Prod.fst).contains p) = [] := by
        apply List.filter_eq_nil_iff.mpr
        intro q hq
        simp only [decide_not, Bool.not_eq_true', decide_eq_false_iff_not,
          Decidable.not_not]
        have : q ∈ ((weights.filter (fun nw => declared.contains nw.1)).map
            (fun nw => (nw.1, adjust nw.1 nw.2))).map Prod.fst :=
          (mem_loaded_names declared adjust weights q).mpr ⟨hall q hq, hq⟩
        simpa using this
      simp only [hmiss, List.isEmpty_nil, if_pos]
    · intro p hp
      exact (mem_loaded_names declared adjust weights p).mpr ⟨hall p hp, hp⟩
  · rintro ⟨p, hp, hnp⟩
    have hiff : ∀ q, (q ∈ declared.filter (fun q => ¬ (((weights.filter
          (fun nw => declared.contains nw.1)).map
          (fun nw => (nw.1, adjust nw.1 nw.2))).map Prod.fst).contains q))
        ↔ (q ∈ declared ∧ q ∉ weights.map Prod.fst) := by
      intro q
      simp only [List.mem_filter, decide_not, Bool.not_eq_true',
        decide_eq_false_iff_not]
      constructor
      · rintro ⟨hq, hnc⟩
        refine ⟨hq, fun hmem => hnc ?_⟩
        simpa using (mem_loaded_names declared adjust weights q).mpr ⟨hmem, hq⟩
      · rintro ⟨hq, hnm⟩
        refine ⟨hq, fun hc => ?_⟩
        exact hnm ((mem_loaded_names declared adjust weights q).mp (by simpa using hc)).1
    have hpm := (hiff p).mpr ⟨hp, hnp⟩
    have hne : declared.filter (fun q => ¬ (((weights.filter
        (fun nw => declared.contains nw.1)).map
        (fun nw => (nw.1, adjust nw.1 nw.2))).map Prod.fst).contains q) ≠ [] :=
      List.ne_nil_of_mem hpm
    have hcond : ¬ ((declared.filter (fun q => ¬ (((weights.filter
        (fun nw => declared.contains nw.1)).map
        (fun nw => (nw.1, adjust nw.1 nw.2))).map Prod.fst).contains q)).isEmpty
          = true) :=
      fun h => hne (List.isEmpty_iff.mp h)
    refine ⟨_, ?_, hiff⟩
    simp only [load_weights]
    rw [if_neg hcond]
  · intro p hp hmissing hothers
    simp only [load_weights]
    have hmiss : declared.filter (fun q => ¬ (((weights.filter
        (fun nw => declared.contains nw.1)).map
        (fun nw => (nw.1, adjust nw.1 nw.2))).map Prod.fst).contains q) = [p] := by
      apply filter_eq_singleton hnd hp
      intro q hq
      simp only [decide_not, Bool.not_eq_true', decide_eq_false_iff_not]
      constructor
      · intro hnc
        by_contra hqp
        have : q ∈ ((weights.filter (fun nw => declared.contains nw.1)).map
            (fun nw => (nw.1, adjust nw.1 nw.2))).map Prod.fst :=
          (mem_loaded_names declared adjust weights q).mpr ⟨hothers q hq hqp, hq⟩
        exact hnc (by simpa using this)
      · intro hqp hc
        subst hqp
        have := (mem_loaded_names declared adjust weights q).mp (by simpa using hc)
        exact hmissing this.1
    rw [hmiss]
    rfl

/-- Witness for C8: with declared parameters `mel_head.weight` and
`final_norm.weight`, supplying both succeeds with both bound; omitting
`final_norm.weight` fails naming exactly it; with a third declared parameter
`gpt.ln_f.weight` and only `mel_head.weight` supplied, the error names both
unbound parameters and not the bound one. -/
theorem claim_C8_witness :
    (∃ bound, load_weights ["mel_head.weight", "final_norm.weight"]
        (fun _ w => w) [("mel_head.weight", (5 : Int)), ("final_norm.weight", 7)]
        = Except.ok bound
      ∧ ∀ p ∈ ["mel_head.weight", "final_norm.weight"], p ∈ bound.map Prod.fst)
  ∧ load_weights ["mel_head.weight", "final_norm.weight"]
      (fun _ w => w) [("mel_head.weight", (5 : Int))]
      = Except.error ["final_norm.weight"]
  ∧ (∃ missing, load_weights ["gpt.ln_f.weight", "mel_head.weight", "final_norm.weight"]
        (fun _ w => w) [("mel_head.weight", (5 : Int))] = Except.error missing
      ∧ "gpt.ln_f.weight" ∈ missing ∧ "final_norm.weight" ∈ missing
      ∧ "mel_head.weight" ∉ missing) := by
  refine ⟨?_, ?_, ?_⟩
  · exact (claim_C8 ["mel_head.weight", "final_norm.weight"] (fun _ w => w)
      [("mel_head.weight", (5 : Int)), ("final_norm.weight", 7)] (by decide)).1
      (by decide)
  · exact (claim_C8 ["mel_head.weight", "final_norm.weight"] (fun _ w => w)
      [("mel_head.weight", (5 : Int))] (by decide)).2.2
      "final_norm.weight" (by decide) (by decide) (by decide)
  · obtain ⟨missing, heq, hiff⟩ :=
      (claim_C8 ["gpt.ln_f.weight", "mel_head.weight", "final_norm.weight"]
        (fun _ w => w) [("mel_head.weight", (5 : Int))] (by decide)).2.1
        ⟨"gpt.ln_f.weight", by decide, by decide⟩
    refine ⟨missing, heq, (hiff _).mpr ⟨by decide, by decide⟩,
      (hiff _).mpr ⟨by decide, by decide⟩,
      fun hmem => ((hiff _).mp hmem).2 (by decide)⟩

/-- C10: a supplied `(name, tensor)` pair whose name matches no declared
parameter is silently skipped: inserting it anywhere in the supplied weights
changes nothing — not the success/error outcome, not any bound parameter, and
not binding completeness. -/
theorem claim_C10 {W : Type} (declared : List String) (adjust : String → W → W)
    (ws1 ws2 : List (String × W)) (n : String) (w : W) (hn : n ∉ declared) :
    load_weights declared adjust (ws1 ++ (n, w) :: ws2)
      = load_weights declared adjust (ws1 ++ ws2) := by
  have hc : declared.contains n = false := by
    simpa using hn
  have key : (ws1 ++ (n, w) :: ws2).filter (fun nw => declared.contains nw.1)
      = (ws1 ++ ws2).filter (fun nw => declared.contains nw.1) := by
    simp only [List.filter_append, List.filter_cons, hc]
    simp
  simp only [load_weights, key]

/-- Witness for C10: an extra pair named `not_a_param` inserted in the middle
of the supplied weights leaves the load result unchanged. -/
theorem claim_C10_witness :
    load_weights ["mel_head.weight"] (fun _ w => w)
        ([("mel_head.weight", (5 : Int))] ++ ("not_a_param", 9) :: [])
      = load_weights ["mel_head.weight"] (fun _ w => w)
        ([("mel_head.weight", (5 : Int))] ++ []) :=
  claim_C10 ["mel_head.weight"] (fun _ w => w)
    [("mel_head.weight", (5 : Int))] [] "not_a_param" 9 (by decide)

/-- Closed form of the cumulative offset loop: entry `i` is
`(p + Σ_{j<i} s_j + c_i, p + Σ_{j<i} s_j + s_i)`. -/
lemma offsetAux_closed (cs : List Nat) : ∀ (ss : List Nat) (p : Nat),
    offsetAux p cs ss =
      (List.range (min cs.length ss.length)).map
        (fun i => (p + (ss.take i).sum + cs.getD i 0,
                   p + (ss.take i).sum + ss.getD i 0)) := by
  induction cs with
  | nil => intro ss p; simp [offsetAux]
  | cons c cs ih =>
    intro ss p
    cases ss with
    | nil => simp [offsetAux]
    | cons s ss =>
      show ((p + c, p + s) :: offsetAux (p + s) cs ss) = _
      rw [ih ss (p + s)]
      simp only [List.length_cons, Nat.succ_min_succ, List.range_succ_eq_map,
        List.map_cons, List.map_map]
      refine congrArg₂ _ ?_ ?_
      · simp
      · refine List.map_congr_left fun i _ => ?_
        simp [List.take_succ_cons, List.getD_cons_succ, Nat.add_assoc]

/-- The offset table has one entry per request. -/
lemma offsetTable_length (c s : List Nat) :
    (offsetTable c s).length = min c.length s.length := by
  rw [offsetTable, offsetAux_closed]; simp

/-- Entry `i` of the offset table in closed form. -/
lemma offsetTable_getD (c s : List Nat) (i : Nat) (hi : i < min c.length s.length) :
    (offsetTable c s).getD i (0, 0)
      = ((s.take i).sum + c.getD i 0, (s.take i).sum + s.getD i 0) := by
  rw [offsetTable, offsetAux_closed, List.getD_eq_getElem?_getD, List.getElem?_map,
    List.getElem?_range hi]
  simp

/-- The per-entry differences `end - start` of the cumulative offsets are the
per-request `s_i - c_i` (as integers, matching Python arithmetic). -/
lemma offsetAux_diffs (cs : List Nat) : ∀ (ss : List Nat) (p : Nat),
    (offsetAux p cs ss).map (fun pr => ((pr.2 : Int) - (pr.1 : Int)))
      = List.zipWith (fun (x y : Nat) => (y : Int) - (x : Int)) cs ss := by
  induction cs with
  | nil => intro ss p; simp [offsetAux]
  | cons c cs ih =>
    intro ss p
    cases ss with
    | nil => simp [offsetAux]
    | cons s ss =>
      simp only [offsetAux, List.map_cons, List.zipWith_cons_cons, ih]
      congr 1
      push_cast
      ring

/-- C1: for a heterogeneous conditioning bundle with conditioning lengths `c`
and per-request sequence lengths `s` (same number of requests, `c_i ≤ s_i`),
the offset table satisfies `start_0 = c_0`, `end_0 = s_0`,
`start_{i+1} = end_i + c_{i+1}`, `end_{i+1} = end_i + s_{i+1}`, hence
`end_i - start_i = s_i - c_i`; on conditioning lengths `[3, 2]` and sequence
lengths `[5, 4]` the offsets are `(3,5)` and `(7,9)` with reconstructed
audio-token counts `[2, 2]`. -/
theorem claim_C1 (c s : List Nat) (hlen : c.length = s.length)
    (hcs : ∀ i, i < c.length → c.getD i 0 ≤ s.getD i 0) :
    (offsetTable c s).length = c.length
  ∧ (0 < c.length → (offsetTable c s).getD 0 (0, 0) = (c.getD 0 0, s.getD 0 0))
  ∧ (∀ i, i + 1 < c.length →
      ((offsetTable c s).getD (i + 1) (0, 0)).1
          = ((offsetTable c s).getD i (0, 0)).2 + c.getD (i + 1) 0
      ∧ ((offsetTable c s).getD (i + 1) (0, 0)).2
          = ((offsetTable c s).getD i (0, 0)).2 + s.getD (i + 1) 0)
  ∧ (∀ i, i < c.length →
      ((offsetTable c s).getD i (0, 0)).2 - ((offsetTable c s).getD i (0, 0)).1
        = s.getD i 0 - c.getD i 0)
  ∧ offsetTable [3, 2] [5, 4] = [(3, 5), (7, 9)]
  ∧ ids_for_unpacking [3, 2] [5, 4] = [2, 2] := by
  have hmin : min c.length s.length = c.length := by omega
  refine ⟨?_, ?_, ?_, ?_, by decide, by decide⟩
  · rw [offsetTable_length, hmin]
  · intro h0
    rw [offsetTable_getD c s 0 (by omega)]
    simp
  · intro i hi
    have hs : i < s.length := by omega
    rw [offsetTable_getD c s (i + 1) (by omega), offsetTable_getD c s i (by omega)]
    have hsum : (s.take (i + 1)).sum = (s.take i).sum + s.getD i 0 := by
      rw [List.sum_take_succ s i hs, List.getD_eq_getElem s 0 hs]
    exact ⟨by omega, by omega⟩
  · intro i hi
    rw [offsetTable_getD c s i (by omega)]
    exact Nat.add_sub_add_left _ _ _

/-- Witness for C1 at the spec's worked example `c = [3,2]`, `s = [5,4]`. -/
theorem claim_C1_witness :
    offsetTable [3, 2] [5, 4] = [(3, 5), (7, 9)]
  ∧ ids_for_unpacking [3, 2] [5, 4] = [2, 2] := by
  exact ⟨(claim_C1 [3, 2] [5, 4] (by decide) (by decide)).2.2.2.2.1,
    (claim_C1 [3, 2] [5, 4] (by decide) (by decide)).2.2.2.2.2⟩

/-- Slicing past a known prefix ignores the prefix. -/
lemma pySlice_append {α : Type} (P rest : List α) (a b : Nat) :
    pySlice (P ++ rest) (P.length + a) (P.length + b) = pySlice rest a b := by
  unfold pySlice
  rw [List.take_append b, List.drop_append a]

/-- Slicing `P ++ (A ++ B) ++ rest` from `|P| + |A|` to `|P| + |A| + |B|`
recovers exactly `B`. -/
lemma pySlice_middle {α : Type} (P A B rest : List α) :
    pySlice (P ++ ((A ++ B) ++ rest)) (P.length + A.length)
      (P.length + (A.length + B.length)) = B := by
  rw [List.append_assoc A B rest,
    pySlice_append P (A ++ (B ++ rest)) A.length (A.length + B.length)]
  have h2 : pySlice (A ++ (B ++ rest)) (A.length + 0) (A.length + B.length)
      = pySlice (B ++ rest) 0 B.length :=
    pySlice_append A (B ++ rest) 0 B.length
  rw [Nat.add_zero] at h2
  rw [h2]
  unfold pySlice
  rw [List.drop_zero, List.take_left]

/-- Mapping the per-pair slice over the cumulative offsets of a well-formed
packed layout reproduces exactly each request's second segment, for any
already-consumed packed prefix `P`. -/
lemma repack_aux {α : Type} (pairs : List (List α × List α)) :
    ∀ (P : List α),
      (offsetAux P.length (pairs.map fun r => r.1.length)
          (pairs.map fun r => r.1.length + r.2.length)).map
        (fun pr => pySlice (P ++ (pairs.map fun r => r.1 ++ r.2).flatten) pr.1 pr.2)
      = pairs.map Prod.snd := by
  induction pairs with
  | nil => intro P; simp [offsetAux]
  | cons r rs ih =>
    intro P
    simp only [List.map_cons, List.flatten_cons, offsetAux]
    refine List.cons_eq_cons.mpr ⟨?_, ?_⟩
    · exact pySlice_middle P r.1 r.2 (rs.map fun x => x.1 ++ x.2).flatten
    · have hP : P.length + (r.1.length + r.2.length) = (P ++ (r.1 ++ r.2)).length := by
        simp
      have hA : P ++ ((r.1 ++ r.2) ++ (rs.map fun x => x.1 ++ x.2).flatten)
          = (P ++ (r.1 ++ r.2)) ++ (rs.map fun x => x.1 ++ x.2).flatten :=
        (List.append_assoc P (r.1 ++ r.2) ((rs.map fun x => x.1 ++ x.2).flatten)).symm
      rw [hA, hP]
      exact ih (P ++ (r.1 ++ r.2))

/-- Splitting a flattened list of chunks by the chunk lengths succeeds and
returns the chunks. -/
lemma splitSizesAux_flatten {α : Type} (chunks : List (List α)) :
    splitSizesAux chunks.flatten (chunks.map List.length) = some chunks := by
  induction chunks with
  | nil => rfl
  | cons ch rest ih =>
    simp only [List.flatten_cons, List.map_cons, splitSizesAux]
    rw [if_pos (by simp)]
    rw [List.drop_left, List.take_left, ih]
    rfl

/-- `zipWith` over two flattened parallel segmentations of equal per-segment
lengths is the flattening of the per-segment `zipWith`s. -/
lemma zipWith_flatten_map {γ β₁ β₂ α : Type} (emb : β₁ → β₂ → α) (l : List γ)
    (f : γ → List β₁) (g : γ → List β₂)
    (h : ∀ r ∈ l, (f r).length = (g r).length) :
    List.zipWith emb (l.map f).flatten (l.map g).flatten
      = (l.map (fun r => List.zipWith emb (f r) (g r))).flatten := by
  induction l with
  | nil => rfl
  | cons r rs ih =>
    simp only [List.map_cons, List.flatten_cons]
    rw [List.zipWith_append _ _ _ _ _ (h r (List.mem_cons_self r rs)),
      ih (fun x hx => h x (List.mem_cons_of_mem r hx))]

/-- Summing the pointwise integer differences of two equal-length `Nat` lists
gives the difference of the sums. -/
lemma zipWith_sub_sum : ∀ (c s : List Nat), c.length = s.length →
    (List.zipWith (fun (x y : Nat) => (y : Int) - (x : Int)) c s).sum
      = (s.sum : Int) - (c.sum : Int) := by
  intro c
  induction c with
  | nil =>
    intro s hs
    have : s = [] := List.length_eq_zero.mp hs.symm
    simp [this]
  | cons a c ih =>
    intro s hs
    cases s with
    | nil => simp at hs
    | cons b s =>
      simp only [List.zipWith_cons_cons, List.sum_cons]
      rw [ih s (by simpa using hs)]
      push_cast
      ring

/-- Interleaving two parallel maps is the flattening of the pointwise
concatenations. -/
lemma interleaveCat_map {α γ : Type} (l : List γ) (f g : γ → List α) :
    interleaveCat (l.map f) (l.map g) = (l.map fun x => f x ++ g x).flatten := by
  rw [interleaveCat, List.zip_map', List.map_map]
  rfl

/-- Master reconstruction lemma for the heterogeneous logits-only branch: on
a well-formed packed layout (per request, placeholder tokens and positions
standing one-per-conditioning-row, followed by the audio tokens/positions),
the computed offsets slice out exactly each request's audio sub-ranges, the
split succeeds, and the assembled output is per-request
`cond_i ++ emb (audio_i)` concatenated in batch order. -/
lemma logitsOnlyForward_layout {α : Type} (emb : Int → Int → α)
    (reqs : List (ReqLayout α))
    (hw : ∀ r ∈ reqs, r.condToks.length = r.cond.length
        ∧ r.condPoss.length = r.cond.length
        ∧ r.audPoss.length = r.audToks.length) :
    ((offsetTable ((reqs.map fun r => r.cond).map List.length)
        (reqs.map fun r => r.condToks.length + r.audToks.length)).map
      (fun pr => pySlice ((reqs.map fun r => r.condToks ++ r.audToks).flatten)
        pr.1 pr.2) = reqs.map fun r => r.audToks)
  ∧ ((offsetTable ((reqs.map fun r => r.cond).map List.length)
        (reqs.map fun r => r.condToks.length + r.audToks.length)).map
      (fun pr => pySlice ((reqs.map fun r => r.condPoss ++ r.audPoss).flatten)
        pr.1 pr.2) = reqs.map fun r => r.audPoss)
  ∧ logitsOnlyForward emb (reqs.map fun r => r.cond)
      ((reqs.map fun r => r.condToks ++ r.audToks).flatten)
      ((reqs.map fun r => r.condPoss ++ r.audPoss).flatten)
      (reqs.map fun r => r.condToks.length + r.audToks.length)
      = some ((reqs.map fun r =>
          r.cond ++ List.zipWith emb r.audToks r.audPoss).flatten) := by
  have hcl : (reqs.map fun r => r.cond).map List.length
      = reqs.map fun r => r.condToks.length := by
    rw [List.map_map]
    exact List.map_congr_left fun r hr => ((hw r hr).1).symm
  have htok := repack_aux (reqs.map fun r => (r.condToks, r.audToks)) ([] : List Int)
  simp only [List.map_map, Function.comp_def, List.length_nil, List.nil_append] at htok
  have hpos := repack_aux (reqs.map fun r => (r.condPoss, r.audPoss)) ([] : List Int)
  simp only [List.map_map, Function.comp_def, List.length_nil, List.nil_append] at hpos
  have hpl : (reqs.map fun r => r.condPoss.length) = reqs.map fun r => r.condToks.length :=
    List.map_congr_left fun r hr => by rw [(hw r hr).2.1, (hw r hr).1]
  have hsl : (reqs.map fun r => r.condPoss.length + r.audPoss.length)
      = reqs.map fun r => r.condToks.length + r.audToks.length :=
    List.map_congr_left fun r hr => by rw [(hw r hr).2.1, (hw r hr).1, (hw r hr).2.2]
  rw [hpl, hsl] at hpos
  have e1 : repackSlices ((reqs.map fun r => r.condToks ++ r.audToks).flatten)
      (offsetTable ((reqs.map fun r => r.cond).map List.length)
        (reqs.map fun r => r.condToks.length + r.audToks.length))
      = (reqs.map fun r => r.audToks).flatten := by
    rw [repackSlices, offsetTable, hcl]
    exact congrArg List.flatten htok
  have e2 : repackSlices ((reqs.map fun r => r.condPoss ++ r.audPoss).flatten)
      (offsetTable ((reqs.map fun r => r.cond).map List.length)
        (reqs.map fun r => r.condToks.length + r.audToks.length))
      = (reqs.map fun r => r.audPoss).flatten := by
    rw [repackSlices, offsetTable, hcl]
    exact congrArg List.flatten hpos
  have e3 : List.zipWith emb ((reqs.map fun r => r.audToks).flatten)
      ((reqs.map fun r => r.audPoss).flatten)
      = (reqs.map fun r => List.zipWith emb r.audToks r.audPoss).flatten :=
    zipWith_flatten_map emb reqs (fun r => r.audToks) (fun r => r.audPoss)
      (fun r hr => ((hw r hr).2.2).symm)
  have e4 : ids_for_unpacking ((reqs.map fun r => r.cond).map List.length)
      (reqs.map fun r => r.condToks.length + r.audToks.length)
      = reqs.map fun r => (r.audToks.length : Int) := by
    rw [ids_for_unpacking, offsetTable, hcl, offsetAux_diffs,
      List.zipWith_map_left, List.zipWith_map_right, List.zipWith_same]
    exact List.map_congr_left fun r _ => by push_cast; ring
  have e5 : splitSizes ((reqs.map fun r => List.zipWith emb r.audToks r.audPoss).flatten)
      (reqs.map fun r => (r.audToks.length : Int))
      = some (reqs.map fun r => List.zipWith emb r.audToks r.audPoss) := by
    have hall : ((reqs.map fun r => ((r.audToks.length : Int))).all
        (fun z => decide (0 ≤ z))) = true := by
      simp only [List.all_eq_true, List.mem_map]
      rintro z ⟨r, _, rfl⟩
      simp
    rw [splitSizes, if_pos hall, List.map_map]
    have htn : ((fun z => z.toNat) ∘ fun r : ReqLayout α => ((r.audToks.length : Int)))
        = fun r : ReqLayout α => r.audToks.length := by
      funext r
      simp
    rw [htn]
    have hcs : (reqs.map fun r => r.audToks.length)
        = (reqs.map fun r => List.zipWith emb r.audToks r.audPoss).map List.length := by
      rw [List.map_map]
      exact List.map_congr_left fun r hr => by
        rw [Function.comp, List.length_zipWith emb r.audToks r.audPoss,
          (hw r hr).2.2, Nat.min_self]
    rw [hcs]
    exact splitSizesAux_flatten (reqs.map fun r => List.zipWith emb r.audToks r.audPoss)
  refine ⟨?_, ?_, ?_⟩
  · rw [offsetTable, hcl]
    exact htok
  · rw [offsetTable, hcl]
    exact hpos
  · simp only [logitsOnlyForward]
    rw [e1, e2, e4, e3, e5]
    show some (interleaveCat (reqs.map fun r => r.cond)
        (reqs.map fun r => List.zipWith emb r.audToks r.audPoss)) = _
    rw [interleaveCat_map]

/-- C2: for every logits-only call on a well-formed heterogeneous packed
batch (per request: conditioning-placeholder tokens/positions followed by
audio tokens/positions), slicing the packed token and position tensors with
the computed `(start_i, end_i)` offsets reproduces exactly each request's
audio-token sub-range, and the assembled output is, per request,
`conditioning_i ++ emb(audio_tokens_i)`, all concatenated in batch order. -/
theorem claim_C2 {α : Type} (emb : Int → Int → α) (reqs : List (ReqLayout α))
    (hw : ∀ r ∈ reqs, r.condToks.length = r.cond.length
        ∧ r.condPoss.length = r.cond.length
        ∧ r.audPoss.length = r.audToks.length) :
    ((offsetTable ((reqs.map fun r => r.cond).map List.length)
        (reqs.map fun r => r.condToks.length + r.audToks.length)).map
      (fun pr => pySlice ((reqs.map fun r => r.condToks ++ r.audToks).flatten)
        pr.1 pr.2) = reqs.map fun r => r.audToks)
  ∧ ((offsetTable ((reqs.map fun r => r.cond).map List.length)
        (reqs.map fun r => r.condToks.length + r.audToks.length)).map
      (fun pr => pySlice ((reqs.map fun r => r.condPoss ++ r.audPoss).flatten)
        pr.1 pr.2) = reqs.map fun r => r.audPoss)
  ∧ logitsOnlyForward emb (reqs.map fun r => r.cond)
      ((reqs.map fun r => r.condToks ++ r.audToks).flatten)
      ((reqs.map fun r => r.condPoss ++ r.audPoss).flatten)
      (reqs.map fun r => r.condToks.length + r.audToks.length)
      = some ((reqs.map fun r =>
          r.cond ++ List.zipWith emb r.audToks r.audPoss).flatten) :=
  logitsOnlyForward_layout emb reqs hw

/-- Witness for C2: two requests with conditioning lengths `[3, 2]` and
sequence lengths `[5, 4]`; the reconstructed batch is
`cond₀ ++ emb(audio₀) ++ cond₁ ++ emb(audio₁)`. -/
theorem claim_C2_witness :
    logitsOnlyForward (fun t p => t * 1000 + p)
      [[(100 : Int), 101, 102], [200, 201]]
      [1, 1, 1, 5, 6, 1, 1, 7, 8] [0, 1, 2, 3, 4, 0, 1, 2, 3] [5, 4]
      = some [100, 101, 102, 5003, 6004, 200, 201, 7002, 8003] := by
  have h := (claim_C2 (fun t p => t * 1000 + p)
    [⟨[100, 101, 102], [1, 1, 1], [5, 6], [0, 1, 2], [3, 4]⟩,
     ⟨[200, 201], [1, 1], [7, 8], [0, 1], [2, 3]⟩] (by decide)).2.2
  simpa using h

/-- C3 counterexample: the claim's trigger — the sum of the computed
per-request range lengths differing from the `seq_lens` total — holds on the
spec's own worked example (`4 ≠ 9`, since the range lengths always sum to
`sum(seq_lens) - sum(conditioning lengths)`), and yet the call completes
without any fatal error: there is no consistency check. -/
theorem claim_C3_counterexample :
    (ids_for_unpacking [3, 2] [5, 4]).sum ≠ (([5, 4] : List Nat).sum : Int)
  ∧ (logitsOnlyForward (fun t p => t * 1000 + p) [[(0 : Int), 0, 0], [0, 0]]
      [1, 1, 1, 5, 6, 1, 1, 7, 8] [0, 1, 2, 3, 4, 0, 1, 2, 3] [5, 4]).isSome
        = true := by
  constructor
  · decide
  · decide

/-- C3 amended: the alignment engine performs no consistency check between
the computed range lengths and the `seq_lens` totals.  The computed range
lengths always sum to `sum(seq_lens) - sum(conditioning lengths)` — so they
differ from `sum(seq_lens)` on every call with nonempty conditioning — and a
well-formed call completes without any error; a fatal error can arise only
from the `torch.split` step when the computed sizes fail to tile the packed
rows, not from an explicit consistency check. -/
theorem claim_C3_amended {α : Type} (emb : Int → Int → α)
    (reqs : List (ReqLayout α))
    (hw : ∀ r ∈ reqs, r.condToks.length = r.cond.length
        ∧ r.condPoss.length = r.cond.length
        ∧ r.audPoss.length = r.audToks.length)
    (hpos : 0 < (((reqs.map fun r => r.cond).map List.length).sum)) :
    (ids_for_unpacking ((reqs.map fun r => r.cond).map List.length)
        (reqs.map fun r => r.condToks.length + r.audToks.length)).sum
      = (((reqs.map fun r => r.condToks.length + r.audToks.length).sum : Nat) : Int)
        - (((reqs.map fun r => r.cond).map List.length).sum : Int)
  ∧ (ids_for_unpacking ((reqs.map fun r => r.cond).map List.length)
        (reqs.map fun r => r.condToks.length + r.audToks.length)).sum
      ≠ (((reqs.map fun r => r.condToks.length + r.audToks.length).sum : Nat) : Int)
  ∧ (logitsOnlyForward emb (reqs.map fun r => r.cond)
      ((reqs.map fun r => r.condToks ++ r.audToks).flatten)
      ((reqs.map fun r => r.condPoss ++ r.audPoss).flatten)
      (reqs.map fun r => r.condToks.length + r.audToks.length)).isSome = true := by
  have hsum : (ids_for_unpacking ((reqs.map fun r => r.cond).map List.length)
      (reqs.map fun r => r.condToks.length + r.audToks.length)).sum
      = (((reqs.map fun r => r.condToks.length + r.audToks.length).sum : Nat) : Int)
        - (((reqs.map fun r => r.cond).map List.length).sum : Int) := by
    rw [ids_for_unpacking, offsetTable, offsetAux_diffs]
    exact zipWith_sub_sum _ _ (by simp)
  refine ⟨hsum, ?_, ?_⟩
  · rw [hsum]
    have : (0 : Int) < (((reqs.map fun r => r.cond).map List.length).sum : Int) := by
      exact_mod_cast hpos
    omega
  · rw [(logitsOnlyForward_layout emb reqs hw).2.2]
    rfl

/-- Witness for C3 amended: a single request with one conditioning row and
one audio token — the range lengths sum to `1 = 2 - 1 ≠ 2` and the call
succeeds. -/
theorem claim_C3_amended_witness :
    (ids_for_unpacking [1] [2]).sum = ((2 : Int) - 1)
  ∧ (ids_for_unpacking [1] [2]).sum ≠ (2 : Int)
  ∧ (logitsOnlyForward (fun t p => t + p) [[(50 : Int)]]
      [1, 9] [0, 1] [2]).isSome = true := by
  have h := claim_C3_amended (fun t p => t + p)
    [⟨[50], [1], [9], [0], [1]⟩] (by decide) (by decide)
  refine ⟨by simpa using h.1, by simpa using h.2.1, by simpa using h.2.2⟩

end VllmMmGpt
